import Mathlib

/-!
# A shallow embedding of the CrawlLinks transformer

This file embeds the link-rewriting transformer plugin found in
`quartz/plugins/transformers/links.ts` and proves properties of it.

The document tree is the hast tree (element nodes with a tag name, a
property map and ordered children; text leaves).  Regular-expression
patterns of substitution rules are embedded as their match functions
(`String → Option (List String)`, returning the captured groups of the
first match, i.e. `href.match(regex)?.slice(1)`).  The two
path-resolution collaborators that live outside this plugin
(`transformLink` and `simplifySlug` from `quartz/util/path`) are
parameters of the embedding, carried in the environment.  The host
runtime's `URL`, `decodeURIComponent` and `path.basename` are modelled
concretely below.
-/

/-- The three-variant icon descriptor of a substitution rule
(`type Appendable = (Image | Emoji | Path) & Tagged`). -/
inductive Appendable where
  | image (src : String)
  | emoji (text : String)
  | path (code : String) (viewbox : String)
deriving DecidableEq, Repr

/-- A property value in a hast property map: a plain string or a list of
strings (the latter is how `className` is stored). -/
inductive PropVal where
  | str (s : String)
  | strList (l : List String)
deriving DecidableEq, Repr

/-- A hast property map, in insertion order. -/
abbrev Props := List (String × PropVal)

/-- A hast node: a text leaf or an element with tag name, properties and
ordered children. -/
inductive HNode where
  | text (value : String)
  | element (tagName : String) (properties : Props) (children : List HNode)

/-- Look up a property by name (first binding wins, as in a JS object). -/
def getProp : Props → String → Option PropVal
  | [], _ => none
  | (k₀, v₀) :: rest, k => if k₀ = k then some v₀ else getProp rest k

/-- Look up a property expected to hold a plain string
(the `typeof node.properties.href === "string"` guard). -/
def getStr (p : Props) (k : String) : Option String :=
  match getProp p k with
  | some (.str s) => some s
  | _ => none

/-- `node.properties.className ?? []`, read as a string list. -/
def getClasses (p : Props) : List String :=
  match getProp p "className" with
  | some (.strList l) => l
  | _ => []

/-- Assign a property, replacing the existing binding in place or
appending a new one (JS object assignment). -/
def setProp : Props → String → PropVal → Props
  | [], k, v => [(k, v)]
  | (k₀, v₀) :: rest, k, v =>
    if k₀ = k then (k, v) :: rest else (k₀, v₀) :: setProp rest k v

/-- Does the string start with the given character
(`dest.startsWith("#")` and friends)? -/
def strStartsWith (s : String) (c : Char) : Bool :=
  match s.data with
  | c₀ :: _ => decide (c₀ = c)
  | [] => false

/-- Does the string end with the given character
(`destCanonical.endsWith("/")`)? -/
def endsWithChar (s : String) (c : Char) : Bool :=
  decide (s.data.getLast? = some c)

/-- Modelled from the spec: the `stripSlashes` helper of the missing
`quartz/util/path` module — "Strip leading/trailing separators"; the
flag used at the call sites restricts stripping to the front. -/
def stripSlashes (s : String) (onlyFront : Bool) : String :=
  let l := s.data.dropWhile (· = '/')
  String.mk (if onlyFront then l else (l.reverse.dropWhile (· = '/')).reverse)

/-- Modelled from the spec: the `splitAnchor` helper of the missing
`quartz/util/path` module — splits a destination into its path part and
its fragment part at the first fragment marker. -/
def splitAnchor (s : String) : String × String :=
  (String.mk (s.data.takeWhile (· ≠ '#')), String.mk (s.data.dropWhile (· ≠ '#')))

/-- Model of Node's `path.basename` (posix): drop trailing separators,
then keep the part after the last separator. -/
def basename (s : String) : String :=
  let t := (s.data.reverse.dropWhile (· = '/')).reverse
  String.mk (t.reverse.takeWhile (· ≠ '/')).reverse

/-- A character allowed in a URL scheme after the first one. -/
def isSchemeChar (c : Char) : Bool :=
  c.isAlphanum || c = '+' || c = '-' || c = '.'

/-- The scheme of a string, when it begins with a valid WHATWG scheme
followed by `:` (lower-cased, as the URL parser normalizes it). -/
def schemeOf (s : String) : Option String :=
  let pre := s.data.takeWhile (· ≠ ':')
  let headAlpha : Bool := match pre with | c :: _ => c.isAlpha | [] => false
  if pre.length < s.data.length ∧ headAlpha ∧ pre.all isSchemeChar
  then some (String.mk (pre.map Char.toLower))
  else none

/-- Model of the host runtime's `URL.canParse` (does the string parse as
an absolute WHATWG URL): it must carry a scheme, and a special scheme
must be followed by a nonempty host.  (`file:` URLs, which allow an
empty host, take the `else` branch together with all non-special
schemes, whose opaque paths always parse.) -/
def canParseURL (s : String) : Bool :=
  match schemeOf s with
  | none => false
  | some sch =>
    if sch ∈ ["http", "https", "ws", "wss", "ftp"] then
      let rest := (s.data.dropWhile (· ≠ ':')).drop 1
      let afterSlashes := rest.dropWhile (fun c => c = '/' || c = '\\')
      let host := afterSlashes.takeWhile (fun c => !(c = '/' || c = '\\' || c = '?' || c = '#'))
      !host.isEmpty
    else true

/-- Split a path into `/`-separated segments (always nonempty; an empty
input yields one empty segment). -/
def splitSegsL : List Char → List (List Char)
  | [] => [[]]
  | c :: rest =>
    if c = '/' then [] :: splitSegsL rest
    else
      match splitSegsL rest with
      | [] => [[c]]
      | seg :: segs => (c :: seg) :: segs

/-- Join segments back with `/`. -/
def joinSegsL : List (List Char) → List Char
  | [] => []
  | [seg] => seg
  | seg :: segs => seg ++ '/' :: joinSegsL segs

/-- WHATWG dot-segment handling of the URL path parser: `..` pops the
previous segment, `.` is skipped, and a trailing dot segment leaves a
trailing separator (an empty final segment). -/
def removeDots (acc : List (List Char)) : List (List Char) → List (List Char)
  | [] => acc
  | seg :: rest =>
    if seg = ['.'] then
      (if rest = [] then acc ++ [[]] else removeDots acc rest)
    else if seg = ['.', '.'] then
      (if rest = [] then acc.dropLast ++ [[]] else removeDots acc.dropLast rest)
    else removeDots (acc ++ [seg]) rest

/-- Serialize a resolved segment list as an absolute path. -/
def resolvePathSegs (segs : List (List Char)) : List Char :=
  '/' :: joinSegsL (removeDots [] segs)

/-- Does the string start with `//` (an authority-carrying relative
reference)? -/
def startsWithTwoSlashes (s : String) : Bool :=
  match s.data with
  | c₁ :: c₂ :: _ => decide (c₁ = '/') && decide (c₂ = '/')
  | _ => false

/-- Model of the host runtime's WHATWG URL resolution restricted to the
shapes this plugin feeds it: the `pathname` of `new URL(dest, base)`
where `base` is `https://base.com` followed by `basePath`.  Destinations
carrying a scheme or an authority (`//`), or containing backslashes, are
outside the modelled fragment and map to `none` (in the plugin such
strings either satisfy the absolute-URL predicate and never reach this
step, or make the URL constructor throw).  Percent-encoding of the
serialized path is not modelled: the plugin immediately percent-decodes
the result, and encoding followed by decoding is the identity. -/
def urlPathname (dest basePath : String) : Option String :=
  if (schemeOf dest).isSome then none
  else if startsWithTwoSlashes dest then none
  else if dest.data.contains '\\' then none
  else
    match dest.data.takeWhile (fun c => !(c = '#' || c = '?')) with
    | [] => some basePath
    | c :: rest =>
      if c = '/' then some (String.mk (resolvePathSegs (splitSegsL rest)))
      else
        some (String.mk (resolvePathSegs
          ((splitSegsL (basePath.data.drop 1)).dropLast ++ splitSegsL (c :: rest))))

/-- Hexadecimal digit value, as in the ECMAScript `Decode` algorithm. -/
def hexVal (c : Char) : Option Nat :=
  if '0' ≤ c ∧ c ≤ '9' then some (c.toNat - '0'.toNat)
  else if 'a' ≤ c ∧ c ≤ 'f' then some (c.toNat - 'a'.toNat + 10)
  else if 'A' ≤ c ∧ c ≤ 'F' then some (c.toNat - 'A'.toNat + 10)
  else none

/-- The percent-decoding core of the ECMAScript `decodeURIComponent`
builtin: each `%`-escape must be followed by two hexadecimal digits,
otherwise the builtin throws `URIError`, modelled as `none`; unescaped
characters pass through unchanged.  Escaped bytes are decoded to their
code points one at a time — faithful for ASCII escapes; the builtin's
reassembly (and validation) of multi-byte UTF-8 escape runs is not
modelled, and no property below depends on non-ASCII escapes. -/
def percentDecodeAux : List Char → Option (List Char)
  | [] => some []
  | c :: rest =>
    if c = '%' then
      match rest with
      | h₁ :: h₂ :: rest₁ =>
        match hexVal h₁, hexVal h₂ with
        | some a, some b =>
          match percentDecodeAux rest₁ with
          | some tail => some (Char.ofNat (16 * a + b) :: tail)
          | none => none
        | _, _ => none
      | _ => none
    else
      match percentDecodeAux rest with
      | some tail => some (c :: tail)
      | none => none

/-- Model of the host runtime's `decodeURIComponent` builtin; `none`
models the `URIError` it throws on malformed input. -/
def decodeURIComponent (s : String) : Option String :=
  (percentDecodeAux s.data).map String.mk

/-- A substitution rule: a pattern's match function (the captured groups
of `href.match(regex)`, `none` when the regex does not match) paired
with its icon descriptor (`type Sub = [RegExp, Appendable]` — named `SubRule` here, since `Sub` is taken). -/
abbrev SubRule := (String → Option (List String)) × Appendable

/-- The plugin options (`interface Options`), with the declared
defaults (`defaultOptions`).  The `substitutions` list is optional in
the source; absence is the empty list. -/
structure Options where
  markdownLinkResolution : String := "absolute"
  prettyLinks : Bool := true
  openLinksInNewTab : Bool := false
  lazyLoad : Bool := false
  externalLinkIcon : Bool := true
  substitutions : List SubRule := []

/-- The per-page processing environment: the options, the current
page's slug (`file.data.slug`), and the two out-of-scope collaborators.
`tl` is the `transformLink(slug, dest, transformOptions)` collaborator
and `simplify` the `simplifySlug` collaborator of `quartz/util/path`;
both are modelled from the spec as caller-supplied total functions
("resolvePath … out of scope; assumed total", "simplifySlug(fullSlug) →
simplifiedSlug — canonical form used as the outgoing-set key"). -/
structure Env where
  opts : Options
  slug : String
  tl : String → String → String
  simplify : String → String

/-- The `switch (sub.type)` of the source, building the icon node for a
matched rule: an image becomes an `img` sized to one line of text, an
emoji a literal text node, and a vector icon an `svg` with the given
viewbox and path data. -/
def iconFor : Appendable → HNode
  | .image src =>
    .element "img" [("src", .str src), ("style", .str "max-width:1em;max-height:1em")] []
  | .emoji t => .text t
  | .path code viewbox =>
    .element "svg"
      [("aria-hidden", .str "true"), ("class", .str "external-icon"),
       ("style", .str "max-width:1em;max-height:1em"), ("viewBox", .str viewbox)]
      [.element "path" [("d", .str code)] []]

/-- The built-in default external-link glyph pushed when no rule
matched. -/
def defaultIcon : HNode :=
  .element "svg"
    [("aria-hidden", .str "true"), ("class", .str "external-icon"),
     ("style", .str "max-width:0.8em;max-height:0.8em"), ("viewBox", .str "0 0 512 512")]
    [.element "path"
      [("d", .str "M320 0H288V64h32 82.7L201.4 265.4 178.7 288 224 333.3l22.6-22.6L448 109.3V192v32h64V192 32 0H480 320zM32 32H0V64 480v32H32 456h32V480 352 320H424v32 96H64V96h96 32V32H160 32z")]
      []]

/-- The `opts.substitutions?.every` loop: rules are tried in declared
order and the loop breaks at the first match, yielding that rule's
captured groups and descriptor. -/
def matchSubs : List SubRule → String → Option (List String × Appendable)
  | [], _ => none
  | (pat, sub) :: rest, href =>
    match pat href with
    | some groups => some (groups, sub)
    | none => matchSubs rest href

/-- The outcome of the substitution phase (lines 85–134): the
post-substitution destination (`parts.slice(1).join("")` on a match,
the raw href otherwise) and the rule icon, if any. -/
def substResult (subs : List SubRule) (href : String) : String × Option HNode :=
  match matchSubs subs href with
  | some (groups, sub) => (String.join groups, some (iconFor sub))
  | none => (href, none)

/-- The alias test of lines 168–172: the children (after any icon push)
are exactly one text node whose value differs from the destination. -/
def aliasCond (children : List HNode) (dest : String) : Bool :=
  match children with
  | [.text v] => decide (v ≠ dest)
  | _ => false

/-- The pretty-links test of lines 208–214, evaluated inside the
internal branch: a single text child not starting with `#` has its
value replaced by its final path segment. -/
def prettyRewrite (opts : Options) (children : List HNode) : Option String :=
  if opts.prettyLinks then
    match children with
    | [.text v] => if strStartsWith v '#' then none else some (basename v)
    | _ => none
  else none

/-- Lines 193–201: resolve the (already collaborator-rewritten)
destination against the synthetic base built from the current page's
simplified slug, take the canonical path, split off the anchor, append
`index` after a trailing separator, strip the leading separator and
percent-decode.  `none` models an exception escaping this step. -/
def internalResolve (curSlug dest : String) : Option String :=
  match urlPathname dest ("/" ++ stripSlashes curSlug true) with
  | none => none
  | some pathname =>
    let destCanonical := (splitAnchor pathname).1
    let destCanonical :=
      if endsWithChar destCanonical '/' then destCanonical ++ "index" else destCanonical
    decodeURIComponent (stripSlashes destCanonical true)

/-- The resource tags of line 221. -/
def resourceTags : List String := ["img", "video", "audio", "iframe"]

/-- Lines 220–240: resource elements with a string `src` get a lazy
loading hint when configured, and a non-absolute `src` is rewritten
through the resolution collaborator. -/
def resourceApply (env : Env) (tagName : String) (props : Props) : Props :=
  if tagName ∈ resourceTags then
    match getStr props "src" with
    | some src =>
      let props₁ := if env.opts.lazyLoad then setProp props "loading" (.str "lazy") else props
      if !canParseURL src then setProp props₁ "src" (.str (env.tl env.slug src)) else props₁
    | none => props
  else props

/-- What the tree visitor does to a freshly pushed icon node when it
reaches it: icon shapes are at most two levels deep, are never `a`
elements, and only the `img` variant carries a `src`, so the visit
amounts to applying the resource step at each level. -/
def processedIcon (env : Env) : HNode → HNode
  | .text v => .text v
  | .element t p c =>
    .element t (resourceApply env t p)
      (c.map fun ch =>
        match ch with
        | .text v => .text v
        | .element t₂ p₂ c₂ => .element t₂ (resourceApply env t₂ p₂) c₂)

/-- The result of the per-element callback on a hyperlink: the mutated
property map, the icon pushed as last child (if any, already in its
post-visit form), the pretty-links rewrite of the first child's text
(if any), and the slug added to the outgoing set (if any). -/
structure LinkOut where
  props : Props
  icon : Option HNode
  rewriteHead : Option String
  outSlug : Option String

/-- Lines 83–216: the per-element callback body for `a` elements with a
string `href`.  `none` models an exception escaping the callback. -/
def linkStep (env : Env) (href : String) (props : Props) (children : List HNode) :
    Option LinkOut :=
  let sr := substResult env.opts.substitutions href
  let dest := sr.1
  let matched := (matchSubs env.opts.substitutions href).isSome
  let props₁ := setProp props "href" (.str dest)
  let isExternal := canParseURL dest
  let classes₁ := getClasses props₁ ++ [if isExternal || matched then "external" else "internal"]
  let icon : Option HNode :=
    if (isExternal && env.opts.externalLinkIcon) || matched then
      some (processedIcon env (sr.2.getD defaultIcon))
    else none
  let children₁ := children ++ icon.toList
  let classes₂ := if aliasCond children₁ dest then classes₁ ++ ["alias"] else classes₁
  let props₂ := setProp props₁ "className" (.strList classes₂)
  let props₃ :=
    if isExternal && env.opts.openLinksInNewTab then setProp props₂ "target" (.str "_blank")
    else props₂
  if !(canParseURL dest || strStartsWith dest '#') then
    let dest₁ := env.tl env.slug dest
    let props₄ := setProp props₃ "href" (.str dest₁)
    match internalResolve (env.simplify env.slug) dest₁ with
    | none => none
    | some full =>
      some ⟨setProp props₄ "data-slug" (.str full), icon,
            prettyRewrite env.opts children₁, some (env.simplify full)⟩
  else
    some ⟨props₃, icon, none, none⟩

/-- The whole per-element callback (lines 76–241): the hyperlink branch
when the node is an `a` with a string `href`, then the resource branch
(the two tag sets are disjoint, so at most one branch fires). -/
def elementStep (env : Env) (tagName : String) (props : Props) (children : List HNode) :
    Option LinkOut :=
  let r : Option LinkOut :=
    if tagName = "a" then
      match getStr props "href" with
      | some href => linkStep env href props children
      | none => some ⟨props, none, none, none⟩
    else some ⟨props, none, none, none⟩
  match r with
  | none => none
  | some out => some { out with props := resourceApply env tagName out.props }

/-- Apply the pretty-links text rewrite to the first child. -/
def applyHead : Option String → List HNode → List HNode
  | none, c => c
  | some _, [] => []
  | some v, _ :: rest => .text v :: rest

mutual
/-- The `visit(tree, "element", …)` traversal: the callback runs on a
node before its (possibly just mutated) children are visited; the
pushed icon is visited too, in its post-visit form `processedIcon`.
Returns the rewritten node and the slugs added to the outgoing set, in
visit order; `none` models an exception escaping the traversal. -/
def processTree (env : Env) : HNode → Option (HNode × List String)
  | .text v => some (.text v, [])
  | .element t p c =>
    match elementStep env t p c with
    | none => none
    | some out =>
      match processTrees env c with
      | none => none
      | some (c', slugs) =>
        some (.element t out.props (applyHead out.rewriteHead (c' ++ out.icon.toList)),
              out.outSlug.toList ++ slugs)

/-- Visit a list of sibling nodes in order. -/
def processTrees (env : Env) : List HNode → Option (List HNode × List String)
  | [] => some ([], [])
  | n :: ns =>
    match processTree env n with
    | none => none
    | some (n', s₁) =>
      match processTrees env ns with
      | none => none
      | some (ns', s₂) => some (n' :: ns', s₁ ++ s₂)
end

/-- `Set.add`: insert a slug into the outgoing set, keeping first
insertion order and dropping duplicates. -/
def addToSet (l : List String) (s : String) : List String :=
  if s ∈ l then l else l ++ [s]

/-- One page's processing: traverse the tree and attach the
deduplicated outgoing set (`file.data.links = [...outgoing]`). -/
def processPage (env : Env) (tree : HNode) : Option (HNode × List String) :=
  match processTree env tree with
  | none => none
  | some (t', slugs) => some (t', slugs.foldl addToSet [])

/-- The post-substitution destination of a hyperlink: the value the
source assigns to `dest` after the substitution loop. -/
def destOf (env : Env) (href : String) : String :=
  (substResult env.opts.substitutions href).1

/-- Did some substitution rule match (the `matched` flag)? -/
def matchedB (env : Env) (href : String) : Bool :=
  (matchSubs env.opts.substitutions href).isSome

/-- The icon pushed by lines 140–165, if any: the rule icon when a rule
matched, else the default glyph for external links when the
default-icon option is on. -/
def iconOf (env : Env) (href : String) : Option HNode :=
  if (canParseURL (destOf env href) && env.opts.externalLinkIcon) || matchedB env href then
    some (processedIcon env ((substResult env.opts.substitutions href).2.getD defaultIcon))
  else none

/-- Line 183: is the link internal for resolution purposes? -/
def isInternalB (env : Env) (href : String) : Bool :=
  !(canParseURL (destOf env href) || strStartsWith (destOf env href) '#')

theorem getProp_setProp_self (p : Props) (k : String) (v : PropVal) :
    getProp (setProp p k v) k = some v := by
  induction p with
  | nil => simp [setProp, getProp]
  | cons kv rest ih =>
    obtain ⟨k₀, v₀⟩ := kv
    by_cases h : k₀ = k
    · simp [setProp, getProp, h]
    · simp [setProp, getProp, h, ih]

theorem getProp_setProp_ne (p : Props) (k k' : String) (v : PropVal) (h : k' ≠ k) :
    getProp (setProp p k' v) k = getProp p k := by
  have h' : ¬(k = k') := fun hh => h hh.symm
  induction p with
  | nil => simp [setProp, getProp, h, h']
  | cons kv rest ih =>
    obtain ⟨k₀, v₀⟩ := kv
    by_cases h₀ : k₀ = k'
    · simp [setProp, getProp, h₀, h, h']
    · by_cases h₁ : k₀ = k <;> simp [setProp, getProp, h₀, h₁, ih, h, h']

theorem getStr_setProp_self (p : Props) (k : String) (s : String) :
    getStr (setProp p k (.str s)) k = some s := by
  simp [getStr, getProp_setProp_self]

theorem getStr_setProp_ne (p : Props) (k k' : String) (v : PropVal) (h : k' ≠ k) :
    getStr (setProp p k' v) k = getStr p k := by
  simp [getStr, getProp_setProp_ne p k k' v h]

theorem getClasses_setProp_ne (p : Props) (k : String) (v : PropVal) (h : k ≠ "className") :
    getClasses (setProp p k v) = getClasses p := by
  simp [getClasses, getProp_setProp_ne p "className" k v h]

theorem matchSubs_append_first (l₁ l₂ : List SubRule) (pat : String → Option (List String))
    (sub : Appendable) (href : String) (g : List String)
    (h₁ : ∀ q ∈ l₁, q.1 href = none) (h₂ : pat href = some g) :
    matchSubs (l₁ ++ (pat, sub) :: l₂) href = some (g, sub) := by
  induction l₁ with
  | nil => simp [matchSubs, h₂]
  | cons q rest ih =>
    obtain ⟨qp, qs⟩ := q
    have hq : qp href = none := h₁ (qp, qs) (List.mem_cons_self _ _)
    have hrest : ∀ q ∈ rest, q.1 href = none := fun q hm => h₁ q (List.mem_cons_of_mem _ hm)
    simpa [matchSubs, hq] using ih hrest


theorem ite_append_single {α : Type} (c : Prop) [Decidable c] (l x : List α) :
    (if c then l ++ x else l) = l ++ (if c then x else []) := by
  split <;> simp

/-- Field-by-field characterization of a successful hyperlink step. -/
theorem linkStep_fields (env : Env) (href : String) (p : Props) (c : List HNode) (out : LinkOut)
    (h : linkStep env href p c = some out) :
    out.icon = iconOf env href ∧
    getProp out.props "className" = some (.strList
      (getClasses p ++
        [if canParseURL (destOf env href) || matchedB env href then "external" else "internal"] ++
        (if aliasCond (c ++ (iconOf env href).toList) (destOf env href) then ["alias"] else []))) ∧
    getStr out.props "target" =
      (if canParseURL (destOf env href) && env.opts.openLinksInNewTab then some "_blank"
       else getStr p "target") ∧
    getStr out.props "href" = some
      (if isInternalB env href then env.tl env.slug (destOf env href) else destOf env href) ∧
    out.rewriteHead =
      (if isInternalB env href then prettyRewrite env.opts (c ++ (iconOf env href).toList)
       else none) ∧
    out.outSlug =
      (if isInternalB env href then
        (internalResolve (env.simplify env.slug) (env.tl env.slug (destOf env href))).map
          env.simplify
       else none) ∧
    getStr out.props "data-slug" =
      (if isInternalB env href then
        internalResolve (env.simplify env.slug) (env.tl env.slug (destOf env href))
       else getStr p "data-slug") := by
  obtain ⟨oprops, oicon, orw, oslug⟩ := out
  rw [linkStep] at h
  simp only [] at h
  by_cases hint : (!(canParseURL (substResult env.opts.substitutions href).1 ||
      strStartsWith (substResult env.opts.substitutions href).1 '#')) = true
  · rw [if_pos hint] at h
    rcases hres : internalResolve (env.simplify env.slug)
        (env.tl env.slug (substResult env.opts.substitutions href).1) with _ | full
    · simp only [hres] at h
      exact Option.noConfusion h
    · simp only [hres, Option.some.injEq, LinkOut.mk.injEq] at h
      obtain ⟨h₁, h₂, h₃, h₄⟩ := h
      subst h₁ h₂ h₃ h₄
      refine ⟨?_, ?_, ?_, ?_, ?_, ?_, ?_⟩
      · simp only [iconOf, destOf, matchedB]
      · simp only [iconOf, destOf, matchedB]
        rw [getProp_setProp_ne _ _ _ _ (by decide), getProp_setProp_ne _ _ _ _ (by decide)]
        by_cases hnt : (canParseURL (substResult env.opts.substitutions href).1 &&
            env.opts.openLinksInNewTab) = true
        · rw [if_pos hnt, getProp_setProp_ne _ _ _ _ (by decide), getProp_setProp_self,
            ite_append_single, getClasses_setProp_ne _ _ _ (by decide), List.append_assoc]
        · rw [if_neg hnt, getProp_setProp_self,
            ite_append_single, getClasses_setProp_ne _ _ _ (by decide), List.append_assoc]
      · simp only [destOf]
        rw [getStr_setProp_ne _ _ _ _ (by decide), getStr_setProp_ne _ _ _ _ (by decide)]
        by_cases hnt : (canParseURL (substResult env.opts.substitutions href).1 &&
            env.opts.openLinksInNewTab) = true
        · rw [if_pos hnt, if_pos hnt, getStr_setProp_self]
        · rw [if_neg hnt, if_neg hnt, getStr_setProp_ne _ _ _ _ (by decide),
            getStr_setProp_ne _ _ _ _ (by decide)]
      · simp only [destOf, isInternalB]
        rw [if_pos hint, getStr_setProp_ne _ _ _ _ (by decide), getStr_setProp_self]
      · simp only [iconOf, destOf, matchedB, isInternalB]
        rw [if_pos hint]
      · simp only [destOf, isInternalB]
        rw [if_pos hint, hres]
        rfl
      · simp only [destOf, isInternalB]
        rw [if_pos hint, hres, getStr_setProp_self]
  · rw [if_neg hint] at h
    simp only [Option.some.injEq, LinkOut.mk.injEq] at h
    obtain ⟨h₁, h₂, h₃, h₄⟩ := h
    subst h₁ h₂ h₃ h₄
    refine ⟨?_, ?_, ?_, ?_, ?_, ?_, ?_⟩
    · simp only [iconOf, destOf, matchedB]
    · simp only [iconOf, destOf, matchedB]
      by_cases hnt : (canParseURL (substResult env.opts.substitutions href).1 &&
          env.opts.openLinksInNewTab) = true
      · rw [if_pos hnt, getProp_setProp_ne _ _ _ _ (by decide), getProp_setProp_self,
          ite_append_single, getClasses_setProp_ne _ _ _ (by decide), List.append_assoc]
      · rw [if_neg hnt, getProp_setProp_self,
          ite_append_single, getClasses_setProp_ne _ _ _ (by decide), List.append_assoc]
    · simp only [destOf]
      by_cases hnt : (canParseURL (substResult env.opts.substitutions href).1 &&
          env.opts.openLinksInNewTab) = true
      · rw [if_pos hnt, if_pos hnt, getStr_setProp_self]
      · rw [if_neg hnt, if_neg hnt, getStr_setProp_ne _ _ _ _ (by decide),
          getStr_setProp_ne _ _ _ _ (by decide)]
    · simp only [destOf, isInternalB]
      rw [if_neg hint]
      by_cases hnt : (canParseURL (substResult env.opts.substitutions href).1 &&
          env.opts.openLinksInNewTab) = true
      · rw [if_pos hnt, getStr_setProp_ne _ _ _ _ (by decide),
          getStr_setProp_ne _ _ _ _ (by decide), getStr_setProp_self]
      · rw [if_neg hnt, getStr_setProp_ne _ _ _ _ (by decide), getStr_setProp_self]
    · simp only [destOf, isInternalB]
      rw [if_neg hint]
    · simp only [destOf, isInternalB]
      rw [if_neg hint]
    · simp only [destOf, isInternalB]
      rw [if_neg hint]
      by_cases hnt : (canParseURL (substResult env.opts.substitutions href).1 &&
          env.opts.openLinksInNewTab) = true
      · rw [if_pos hnt, getStr_setProp_ne _ _ _ _ (by decide),
          getStr_setProp_ne _ _ _ _ (by decide), getStr_setProp_ne _ _ _ _ (by decide)]
      · rw [if_neg hnt, getStr_setProp_ne _ _ _ _ (by decide),
          getStr_setProp_ne _ _ _ _ (by decide)]

/-- The hyperlink step fails exactly when the link is internal for
resolution purposes and the canonicalise-and-decode step fails. -/
theorem linkStep_none_iff (env : Env) (href : String) (p : Props) (c : List HNode) :
    linkStep env href p c = none ↔
      (isInternalB env href = true ∧
        internalResolve (env.simplify env.slug) (env.tl env.slug (destOf env href)) = none) := by
  rw [linkStep]
  simp only []
  by_cases hint : (!(canParseURL (substResult env.opts.substitutions href).1 ||
      strStartsWith (substResult env.opts.substitutions href).1 '#')) = true
  · rw [if_pos hint]
    rcases hres : internalResolve (env.simplify env.slug)
        (env.tl env.slug (substResult env.opts.substitutions href).1) with _ | full <;>
      simp [hres, isInternalB, destOf, hint]
  · rw [if_neg hint]
    simp [isInternalB, destOf, hint]

/-- An environment whose two out-of-scope collaborators are the
identity — a permitted instantiation, since both are assumed total and
are otherwise unconstrained here. -/
def mkEnv (o : Options) (slug : String) : Env :=
  { opts := o, slug := slug, tl := fun _ d => d, simplify := fun s => s }

/-- The match function of the spec's example rule `/^mailto:(.+)$/`,
evaluated at the one destination the examples use. -/
def mailtoPat : String → Option (List String) :=
  fun s => if s = "mailto:a@b.com" then some ["a@b.com"] else none

/-- The spec's example substitution rule `(/^mailto:(.+)$/, Emoji("✉"))`. -/
def mailtoRule : SubRule := (mailtoPat, .emoji "✉")

/-- C1: the process is not exception-free: the internal-resolution step
(URL canonicalisation followed by percent-decoding of the canonical
path) is not total.  A destination consisting of the single character
`%` is neither an absolute URL nor an anchor, its canonical path is
`/%`, and percent-decoding it fails (`decodeURIComponent` throws
`URIError`), so the exception escapes the whole processing pass. -/
theorem c1_percent_destination_fails :
    internalResolve "page" "%" = none ∧
    canParseURL "%" = false ∧ strStartsWith "%" '#' = false ∧
    processPage (mkEnv {} "page")
      (.element "root" [] [.element "a" [("href", .str "%")] []]) = none :=
  ⟨rfl, rfl, rfl, rfl⟩

/-- C2 counterexample: a destination matched by a substitution rule is
classified external, yet its rewritten destination (here `a@b.com`,
which is not an absolute URL) still enters the outgoing set, so the set
does contain a destination that matched a rule. -/
theorem c2_counterexample :
    (matchSubs [mailtoRule] "mailto:a@b.com").isSome = true ∧
    (processPage (mkEnv { substitutions := [mailtoRule] } "page")
        (.element "root" [] [.element "a" [("href", .str "mailto:a@b.com")] []])).map
      Prod.snd = some ["a@b.com"] :=
  ⟨rfl, rfl⟩

/-- C3: substitution rules are tested against the raw destination in
declaration order with short-circuit: when every rule before rule `i`
fails on the destination and rule `i` matches, the loop's outcome is
rule `i`'s captured groups and descriptor, and it does not depend on
the later rules (they are never evaluated). -/
theorem c3_first_match_short_circuit (l₁ l₂ : List SubRule)
    (pat : String → Option (List String)) (sub : Appendable) (href : String) (g : List String)
    (hearlier : ∀ q ∈ l₁, q.1 href = none) (hmatch : pat href = some g) :
    matchSubs (l₁ ++ (pat, sub) :: l₂) href = some (g, sub) ∧
    ∀ l₂' : List SubRule, matchSubs (l₁ ++ (pat, sub) :: l₂') href = some (g, sub) :=
  ⟨matchSubs_append_first l₁ l₂ pat sub href g hearlier hmatch,
   fun l₂' => matchSubs_append_first l₁ l₂' pat sub href g hearlier hmatch⟩

/-- A rule matching `"x"` with group `"a"`, for concrete runs. -/
def ruleA : SubRule := (fun s => if s = "x" then some ["a"] else none, .emoji "A")

/-- A second rule also matching `"x"`, with group `"b"`. -/
def ruleB : SubRule := (fun s => if s = "x" then some ["b"] else none, .emoji "B")

theorem c3_witness :
    matchSubs [ruleA, ruleB] "x" = some (["a"], .emoji "A") :=
  (c3_first_match_short_circuit [] [ruleB] ruleA.1 (.emoji "A") "x" ["a"]
    (by simp) rfl).1

/-- C4: on the first matching rule, the post-substitution destination is
the rule's captured groups joined with no separator, and the injected
icon is exactly the rule descriptor's variant: an image becomes an
`img` sized to one text-line height, an inline glyph a literal text
node, and a vector icon an `svg` with the rule's bounding box and path
data. -/
theorem c4_subst_dest_icon (l₁ l₂ : List SubRule)
    (pat : String → Option (List String)) (sub : Appendable) (href : String) (g : List String)
    (hearlier : ∀ q ∈ l₁, q.1 href = none) (hmatch : pat href = some g) :
    substResult (l₁ ++ (pat, sub) :: l₂) href = (String.join g, some (iconFor sub)) ∧
    (∀ env : Env, ∀ p c out, env.opts.substitutions = l₁ ++ (pat, sub) :: l₂ →
      linkStep env href p c = some out →
      out.icon = some (processedIcon env (iconFor sub))) ∧
    (∀ src, iconFor (.image src) =
      .element "img" [("src", .str src), ("style", .str "max-width:1em;max-height:1em")] []) ∧
    (∀ t, iconFor (.emoji t) = .text t) ∧
    (∀ code vb, iconFor (.path code vb) =
      .element "svg"
        [("aria-hidden", .str "true"), ("class", .str "external-icon"),
         ("style", .str "max-width:1em;max-height:1em"), ("viewBox", .str vb)]
        [.element "path" [("d", .str code)] []]) := by
  have hm := matchSubs_append_first l₁ l₂ pat sub href g hearlier hmatch
  refine ⟨by simp [substResult, hm], ?_, fun _ => rfl, fun _ => rfl, fun _ _ => rfl⟩
  intro env p c out hsubs hstep
  obtain ⟨h₁, -, -, -, -, -, -⟩ := linkStep_fields env href p c out hstep
  rw [h₁, iconOf]
  rw [show matchedB env href = true from by simp [matchedB, hsubs, hm]]
  simp [substResult, hsubs, hm]

theorem c4_witness :
    substResult [mailtoRule] "mailto:a@b.com" = ("a@b.com", some (.text "✉")) :=
  (c4_subst_dest_icon [] [] mailtoPat (.emoji "✉") "mailto:a@b.com" ["a@b.com"]
    (by simp) rfl).1

/-- C5: exactly one classification class is appended to the class list:
`external` when the post-substitution destination parses as an absolute
URL or a rule matched, `internal` otherwise (followed only by the
optional `alias` class). -/
theorem c5_classification (env : Env) (href : String) (p : Props) (c : List HNode)
    (out : LinkOut) (h : linkStep env href p c = some out) :
    getProp out.props "className" = some (.strList
      (getClasses p ++
        [if canParseURL (destOf env href) || matchedB env href then "external" else "internal"] ++
        (if aliasCond (c ++ (iconOf env href).toList) (destOf env href) then ["alias"]
         else []))) :=
  (linkStep_fields env href p c out h).2.1

/-- The concrete outcome of processing an external link with the default
options, used to instantiate theorems. -/
def outExt : LinkOut :=
  (linkStep (mkEnv {} "page") "https://example.com/x" [] []).getD ⟨[], none, none, none⟩

theorem c5_witness :
    getProp outExt.props "className" = some (.strList
      (getClasses [] ++
        [if canParseURL (destOf (mkEnv {} "page") "https://example.com/x") ||
            matchedB (mkEnv {} "page") "https://example.com/x" then "external" else "internal"] ++
        (if aliasCond ([] ++ (iconOf (mkEnv {} "page") "https://example.com/x").toList)
            (destOf (mkEnv {} "page") "https://example.com/x") then ["alias"] else []))) :=
  c5_classification (mkEnv {} "page") "https://example.com/x" [] [] outExt rfl

/-- C6: an icon child is appended iff the link is external with the
default-icon option on, or a rule matched; the icon is the rule's icon
when a rule matched and the built-in default glyph otherwise, and at
most one icon is appended per pass. -/
theorem c6_icon (env : Env) (href : String) (p : Props) (c : List HNode)
    (out : LinkOut) (h : linkStep env href p c = some out) :
    out.icon.isSome =
      ((canParseURL (destOf env href) && env.opts.externalLinkIcon) || matchedB env href) ∧
    (∀ g sub, matchSubs env.opts.substitutions href = some (g, sub) →
      out.icon = some (processedIcon env (iconFor sub))) ∧
    (matchSubs env.opts.substitutions href = none →
      out.icon = none ∨ out.icon = some (processedIcon env defaultIcon)) ∧
    out.icon.toList.length ≤ 1 := by
  obtain ⟨h₁, -, -, -, -, -, -⟩ := linkStep_fields env href p c out h
  rw [h₁]
  refine ⟨?_, ?_, ?_, ?_⟩
  · rw [iconOf]
    by_cases hc : ((canParseURL (destOf env href) && env.opts.externalLinkIcon) ||
        matchedB env href) = true
    · rw [if_pos hc, hc]
      rfl
    · rw [if_neg hc]
      simp only [Bool.not_eq_true] at hc
      rw [hc]
      rfl
  · intro g sub hm
    rw [iconOf]
    rw [show matchedB env href = true from by simp [matchedB, hm]]
    simp [substResult, hm]
  · intro hm
    rw [iconOf]
    by_cases hc : ((canParseURL (destOf env href) && env.opts.externalLinkIcon) ||
        matchedB env href) = true
    · rw [if_pos hc]
      right
      simp [substResult, hm]
    · rw [if_neg hc]
      left
      rfl
  · rw [iconOf]
    by_cases hc : ((canParseURL (destOf env href) && env.opts.externalLinkIcon) ||
        matchedB env href) = true
    · rw [if_pos hc]
      simp
    · rw [if_neg hc]
      simp

theorem c6_witness :
    outExt.icon.isSome =
      ((canParseURL (destOf (mkEnv {} "page") "https://example.com/x") &&
          (mkEnv {} "page").opts.externalLinkIcon) ||
        matchedB (mkEnv {} "page") "https://example.com/x") :=
  (c6_icon (mkEnv {} "page") "https://example.com/x" [] [] outExt rfl).1

/-- C7 counterexample: an external link whose only child is a text node
different from its destination gets NO `alias` class: the default icon
is pushed before the alias check, so the children count is 2 at check
time and the check fails. -/
theorem c7_counterexample :
    (linkStep (mkEnv {} "page") "https://example.com/x" [] [.text "label"]).map
        (fun o => getProp o.props "className") =
      some (some (.strList ["external"])) ∧
    ("label" : String) ≠ "https://example.com/x" :=
  ⟨rfl, by decide⟩

/-- C7 amended: the `alias` class is present iff the children, after the
icon push, are exactly one text node whose value differs from the
post-substitution destination (not from the final resolved href). -/
theorem c7_alias_amended (env : Env) (href : String) (p : Props) (c : List HNode)
    (out : LinkOut) (h : linkStep env href p c = some out)
    (hp : "alias" ∉ getClasses p) :
    ("alias" ∈ getClasses out.props ↔
      aliasCond (c ++ (iconOf env href).toList) (destOf env href) = true) := by
  have h₂ := (linkStep_fields env href p c out h).2.1
  have hcl : getClasses out.props =
      getClasses p ++
        [if canParseURL (destOf env href) || matchedB env href then "external" else "internal"] ++
        (if aliasCond (c ++ (iconOf env href).toList) (destOf env href) then ["alias"]
         else []) := by
    rw [getClasses, h₂]
  rw [hcl]
  by_cases ha : aliasCond (c ++ (iconOf env href).toList) (destOf env href) = true <;>
  by_cases hc : (canParseURL (destOf env href) || matchedB env href) = true <;>
    simp [ha, hc, hp]

/-- The concrete outcome of processing an internal link labelled `bar`
with destination `foo`. -/
def outAlias : LinkOut :=
  (linkStep (mkEnv {} "page") "foo" [] [.text "bar"]).getD ⟨[], none, none, none⟩

theorem c7_witness :
    ("alias" ∈ getClasses outAlias.props ↔
      aliasCond ([.text "bar"] ++ (iconOf (mkEnv {} "page") "foo").toList)
        (destOf (mkEnv {} "page") "foo") = true) :=
  c7_alias_amended (mkEnv {} "page") "foo" [] [.text "bar"] outAlias rfl (by decide)

/-- C8: pretty-link shortening never changes the href (the stored href
is the same whatever the pretty-links flag), applies exactly when the
link is internal, the children (after any icon push) are one text node
not starting with `#`, and then only replaces that text by its final
path segment. -/
theorem c8_pretty (env : Env) (b : Bool) (href : String) (p : Props) (c : List HNode)
    (out out' : LinkOut) (h : linkStep env href p c = some out)
    (h' : linkStep { env with opts := { env.opts with prettyLinks := b } } href p c = some out') :
    getStr out'.props "href" = getStr out.props "href" ∧
    out.rewriteHead =
      (if isInternalB env href then prettyRewrite env.opts (c ++ (iconOf env href).toList)
       else none) ∧
    (∀ opts : Options, ∀ children, opts.prettyLinks = false →
      prettyRewrite opts children = none) ∧
    (∀ v : String, ∀ x : HNode, ∀ xs, applyHead (some v) (x :: xs) = .text v :: xs) ∧
    (∀ l, applyHead none l = l) := by
  obtain ⟨-, -, -, h₄, h₅, -, -⟩ := linkStep_fields env href p c out h
  obtain ⟨-, -, -, h₄', -, -, -⟩ := linkStep_fields _ href p c out' h'
  refine ⟨?_, h₅, ?_, fun _ _ _ => rfl, fun _ => rfl⟩
  · rw [h₄, h₄']
    rfl
  · intro opts children hflag
    simp [prettyRewrite, hflag]

/-- The concrete outcome of processing an internal link whose label
carries a directory prefix, with pretty links on (the default). -/
def outPretty : LinkOut :=
  (linkStep (mkEnv {} "page") "dir/foo" [] [.text "dir/foo"]).getD ⟨[], none, none, none⟩

/-- The same link processed with pretty links off. -/
def outPlain : LinkOut :=
  (linkStep { mkEnv {} "page" with
      opts := { (mkEnv {} "page").opts with prettyLinks := false } } "dir/foo" []
    [.text "dir/foo"]).getD ⟨[], none, none, none⟩

theorem c8_witness :
    getStr outPlain.props "href" = getStr outPretty.props "href" :=
  (c8_pretty (mkEnv {} "page") false "dir/foo" [] [.text "dir/foo"] outPretty outPlain
    rfl rfl).1

/-- C10: the open-in-new-tab directive is driven solely by the
absolute-URL test on the post-substitution destination: when that test
fails, the stored target is untouched even if a rule matched (and hence
the link was classified external). -/
theorem c10_newtab (env : Env) (href : String) (p : Props) (c : List HNode)
    (out : LinkOut) (h : linkStep env href p c = some out) :
    getStr out.props "target" =
      (if canParseURL (destOf env href) && env.opts.openLinksInNewTab then some "_blank"
       else getStr p "target") ∧
    (matchedB env href = true → canParseURL (destOf env href) = false →
      getStr out.props "target" = getStr p "target") := by
  obtain ⟨-, -, h₃, -, -, -, -⟩ := linkStep_fields env href p c out h
  refine ⟨h₃, fun _ hcp => ?_⟩
  rw [h₃, hcp]
  simp

/-- The concrete outcome of processing the mailto example with the
new-tab option enabled. -/
def outMailto : LinkOut :=
  (linkStep (mkEnv { substitutions := [mailtoRule], openLinksInNewTab := true } "page")
    "mailto:a@b.com" [] []).getD ⟨[], none, none, none⟩

theorem c10_witness :
    getStr outMailto.props "target" = getStr [] "target" :=
  (c10_newtab (mkEnv { substitutions := [mailtoRule], openLinksInNewTab := true } "page")
    "mailto:a@b.com" [] [] outMailto rfl).2 rfl rfl

/-- How a slug enters the outgoing set: it is the simplification of the
resolution of some post-substitution destination that neither parses as
an absolute URL nor starts with `#`. -/
def isInternalSlugOf (env : Env) (s : String) : Prop :=
  ∃ dest full, canParseURL dest = false ∧ strStartsWith dest '#' = false ∧
    internalResolve (env.simplify env.slug) (env.tl env.slug dest) = some full ∧
    s = env.simplify full

theorem linkStep_outSlug_internal (env : Env) (href : String) (p : Props) (c : List HNode)
    (out : LinkOut) (s : String) (h : linkStep env href p c = some out)
    (hs : out.outSlug = some s) : isInternalSlugOf env s := by
  obtain ⟨-, -, -, -, -, h₆, -⟩ := linkStep_fields env href p c out h
  rw [h₆] at hs
  by_cases hint : isInternalB env href = true
  · rw [if_pos hint] at hs
    rcases hres : internalResolve (env.simplify env.slug)
        (env.tl env.slug (destOf env href)) with _ | full
    · rw [hres] at hs
      cases hs
    · rw [hres] at hs
      simp only [Option.map_some', Option.some.injEq] at hs
      have hint' : canParseURL (destOf env href) = false ∧
          strStartsWith (destOf env href) '#' = false := by
        simpa [isInternalB] using hint
      exact ⟨destOf env href, full, hint'.1, hint'.2, hres, hs.symm⟩
  · rw [if_neg hint] at hs
    cases hs

theorem elementStep_outSlug_internal (env : Env) (t : String) (p : Props) (c : List HNode)
    (out : LinkOut) (s : String) (h : elementStep env t p c = some out)
    (hs : out.outSlug = some s) : isInternalSlugOf env s := by
  rw [elementStep] at h
  by_cases ht : t = "a"
  · rw [if_pos ht] at h
    rcases hh : getStr p "href" with _ | href
    · simp only [hh, Option.some.injEq] at h
      rw [← h] at hs
      cases hs
    · simp only [hh] at h
      rcases hls : linkStep env href p c with _ | lout
      · simp only [hls] at h
        cases h
      · simp only [hls, Option.some.injEq] at h
        rw [← h] at hs
        exact linkStep_outSlug_internal env href p c lout s hls hs
  · rw [if_neg ht] at h
    simp only [Option.some.injEq] at h
    rw [← h] at hs
    cases hs

mutual
theorem processTree_slugs (env : Env) (n : HNode) (r : HNode × List String)
    (h : processTree env n = some r) : ∀ s ∈ r.2, isInternalSlugOf env s := by
  cases n with
  | text v =>
    rw [processTree] at h
    simp only [Option.some.injEq] at h
    rw [← h]
    simp
  | element t p c =>
    rw [processTree] at h
    rcases hes : elementStep env t p c with _ | out
    · rw [hes] at h
      cases h
    · rw [hes] at h
      rcases hts : processTrees env c with _ | cr
      · rw [hts] at h
        cases h
      · rw [hts] at h
        obtain ⟨c', slugs⟩ := cr
        simp only [Option.some.injEq] at h
        rw [← h]
        intro s hsmem
        rcases List.mem_append.mp hsmem with hm | hm
        · rcases hos : out.outSlug with _ | s₀
          · rw [hos] at hm
            cases hm
          · rw [hos] at hm
            simp only [Option.toList_some, List.mem_singleton] at hm
            rw [hm]
            exact elementStep_outSlug_internal env t p c out s₀ hes hos
        · exact processTrees_slugs env c (c', slugs) hts s hm

theorem processTrees_slugs (env : Env) (ns : List HNode) (r : List HNode × List String)
    (h : processTrees env ns = some r) : ∀ s ∈ r.2, isInternalSlugOf env s := by
  cases ns with
  | nil =>
    rw [processTrees] at h
    simp only [Option.some.injEq] at h
    rw [← h]
    simp
  | cons n ns =>
    rw [processTrees] at h
    rcases hn : processTree env n with _ | nr
    · rw [hn] at h
      cases h
    · rw [hn] at h
      obtain ⟨n', s₁⟩ := nr
      rcases hns : processTrees env ns with _ | nsr
      · rw [hns] at h
        cases h
      · rw [hns] at h
        obtain ⟨ns', s₂⟩ := nsr
        simp only [Option.some.injEq] at h
        rw [← h]
        intro s hsmem
        rcases List.mem_append.mp hsmem with hm | hm
        · exact processTree_slugs env n (n', s₁) hn s hm
        · exact processTrees_slugs env ns (ns', s₂) hns s hm
end

theorem mem_addToSet (acc : List String) (x s : String) (h : s ∈ addToSet acc x) :
    s ∈ acc ∨ s = x := by
  by_cases hx : x ∈ acc
  · simp only [addToSet, if_pos hx] at h
    exact Or.inl h
  · simp only [addToSet, if_neg hx] at h
    rcases List.mem_append.mp h with h | h
    · exact Or.inl h
    · simp only [List.mem_singleton] at h
      exact Or.inr h

theorem nodup_foldl_addToSet (l acc : List String) (h : acc.Nodup) :
    (l.foldl addToSet acc).Nodup := by
  induction l generalizing acc with
  | nil => exact h
  | cons x xs ih =>
    simp only [List.foldl_cons]
    apply ih
    by_cases hx : x ∈ acc
    · simpa [addToSet, hx] using h
    · simp only [addToSet, if_neg hx]
      simp [List.nodup_append, h, hx]

theorem mem_foldl_addToSet (l acc : List String) (s : String)
    (h : s ∈ l.foldl addToSet acc) : s ∈ acc ∨ s ∈ l := by
  induction l generalizing acc with
  | nil => exact Or.inl h
  | cons x xs ih =>
    simp only [List.foldl_cons] at h
    rcases ih (addToSet acc x) h with h' | h'
    · rcases mem_addToSet acc x s h' with h'' | h''
      · exact Or.inl h''
      · exact Or.inr (by simp [h''])
    · exact Or.inr (List.mem_cons_of_mem _ h')

/-- C2 amended: the outgoing-link set has one entry per distinct
destination (no duplicates) and contains only normalized destinations
whose post-substitution form neither parses as an absolute URL nor
starts with `#`.  (The original claim fails in that a rule-matched —
hence external-classified — destination can still enter the set: the
internal test of line 183 only checks the absolute-URL predicate and
the fragment marker, not the `matched` flag.) -/
theorem c2_outgoing_amended (env : Env) (tree t' : HNode) (links : List String)
    (h : processPage env tree = some (t', links)) :
    links.Nodup ∧ ∀ s ∈ links, isInternalSlugOf env s := by
  rw [processPage] at h
  rcases ht : processTree env tree with _ | tr
  · rw [ht] at h
    cases h
  · rw [ht] at h
    obtain ⟨t₀, slugs⟩ := tr
    simp only [Option.some.injEq, Prod.mk.injEq] at h
    obtain ⟨-, h₂⟩ := h
    rw [← h₂]
    constructor
    · exact nodup_foldl_addToSet slugs [] List.nodup_nil
    · intro s hs
      rcases mem_foldl_addToSet slugs [] s hs with h' | h'
      · cases h'
      · exact processTree_slugs env tree (t₀, slugs) ht s h'

/-- A one-link page used for concrete runs. -/
def treeW : HNode := .element "root" [] [.element "a" [("href", .str "foo")] []]

/-- The processed form of `treeW` under identity collaborators on page
`page`. -/
def treeW' : HNode :=
  .element "root" []
    [.element "a"
      [("href", .str "foo"), ("className", .strList ["internal"]), ("data-slug", .str "foo")]
      []]

theorem c2_witness :
    (["foo"] : List String).Nodup ∧
      ∀ s ∈ (["foo"] : List String), isInternalSlugOf (mkEnv {} "page") s :=
  c2_outgoing_amended (mkEnv {} "page") treeW treeW' ["foo"] rfl

/-- C9 counterexample: the data-slug value is not a fixed point of the
normalization step.  On page `a/b`, destination `c` normalizes to the
stored slug `a/c`; but normalizing `a/c` again (relative resolution
against the same page) yields `a/a/c`, not `a/c`. -/
theorem c9_counterexample :
    (linkStep (mkEnv {} "a/b") "c" [] []).map (fun o => getStr o.props "data-slug") =
      some (some "a/c") ∧
    internalResolve "a/b" "c" = some "a/c" ∧
    internalResolve "a/b" "a/c" = some "a/a/c" ∧
    ("a/a/c" : String) ≠ "a/c" :=
  ⟨rfl, rfl, rfl, by decide⟩

/-- A character the canonicalisation pipeline passes through unchanged:
no separator, no cut point (`#`, `?`), no escape (`%`), no backslash,
no scheme separator (`:`). -/
def plainChar (c : Char) : Bool :=
  !(c = '/' || c = '#' || c = '?' || c = '%' || c = '\\' || c = ':')

/-- A path segment the URL path parser passes through unchanged:
nonempty, not a dot segment, made of plain characters. -/
def plainSeg (seg : List Char) : Bool :=
  !seg.isEmpty && decide (seg ≠ ['.']) && decide (seg ≠ ['.', '.']) && seg.all plainChar

/-- A slug in canonical shape: `/`-separated plain segments. -/
def goodSlug (s : String) : Bool :=
  (splitSegsL s.data).all plainSeg

theorem mk_data (s : String) : String.mk s.data = s := by
  cases s
  rfl

theorem data_append (a b : String) : (a ++ b).data = a.data ++ b.data := by
  cases a
  cases b
  rfl

theorem splitSegsL_ne_nil (l : List Char) : splitSegsL l ≠ [] := by
  cases l with
  | nil => simp [splitSegsL]
  | cons c rest =>
    rw [splitSegsL]
    by_cases hc : c = '/'
    · simp [hc]
    · rw [if_neg hc]
      rcases h : splitSegsL rest with _ | ⟨seg, segs⟩ <;> simp

theorem joinSegsL_cons_cons (c : Char) (seg : List Char) (segs : List (List Char)) :
    joinSegsL ((c :: seg) :: segs) = c :: joinSegsL (seg :: segs) := by
  cases segs <;> simp [joinSegsL]

theorem joinSegsL_splitSegsL (l : List Char) : joinSegsL (splitSegsL l) = l := by
  induction l with
  | nil => rfl
  | cons c rest ih =>
    rw [splitSegsL]
    by_cases hc : c = '/'
    · rw [if_pos hc, hc]
      rcases h : splitSegsL rest with _ | ⟨seg, segs⟩
      · exact absurd h (splitSegsL_ne_nil rest)
      · rw [h] at ih
        simp [joinSegsL, ih]
    · rw [if_neg hc]
      rcases h : splitSegsL rest with _ | ⟨seg, segs⟩
      · exact absurd h (splitSegsL_ne_nil rest)
      · rw [h] at ih
        rw [joinSegsL_cons_cons, ih]

theorem mem_splitSegsL (l : List Char) (c : Char) (h : c ∈ l) :
    c = '/' ∨ ∃ seg ∈ splitSegsL l, c ∈ seg := by
  induction l with
  | nil => cases h
  | cons c₀ rest ih =>
    rw [splitSegsL]
    by_cases hc : c₀ = '/'
    · rw [if_pos hc]
      rcases List.mem_cons.mp h with h' | h'
      · exact Or.inl (h' ▸ hc)
      · rcases ih h' with h'' | ⟨seg, hm, hcm⟩
        · exact Or.inl h''
        · exact Or.inr ⟨seg, List.mem_cons_of_mem _ hm, hcm⟩
    · rw [if_neg hc]
      rcases hs : splitSegsL rest with _ | ⟨seg, segs⟩
      · exact absurd hs (splitSegsL_ne_nil rest)
      · rcases List.mem_cons.mp h with h' | h'
        · exact Or.inr ⟨c₀ :: seg, List.mem_cons_self _ _, by simp [h']⟩
        · rcases ih h' with h'' | ⟨seg', hm, hcm⟩
          · exact Or.inl h''
          · rcases List.mem_cons.mp (hs ▸ hm) with h₀ | h₀
            · exact Or.inr ⟨c₀ :: seg, List.mem_cons_self _ _,
                List.mem_cons_of_mem _ (h₀ ▸ hcm)⟩
            · exact Or.inr ⟨seg', List.mem_cons_of_mem _ h₀, hcm⟩

theorem splitSegsL_single_empty (l : List Char) (h : splitSegsL l = [[]]) : l = [] := by
  cases l with
  | nil => rfl
  | cons c rest =>
    rw [splitSegsL] at h
    by_cases hc : c = '/'
    · rw [if_pos hc] at h
      simp only [List.cons.injEq] at h
      exact absurd h.2 (splitSegsL_ne_nil rest)
    · rw [if_neg hc] at h
      rcases hs : splitSegsL rest with _ | ⟨seg, segs⟩
      · exact absurd hs (splitSegsL_ne_nil rest)
      · rw [hs] at h
        simp at h

theorem getLast_slash_splitSegsL (l : List Char) (h : l.getLast? = some '/') :
    (splitSegsL l).getLast? = some [] := by
  induction l with
  | nil => cases h
  | cons c rest ih =>
    rcases hrest : rest with _ | ⟨c₁, rest₁⟩
    · subst hrest
      simp only [List.getLast?_singleton, Option.some.injEq] at h
      subst h
      rfl
    · subst hrest
      rw [List.getLast?_cons_cons] at h
      have ih' := ih h
      rw [splitSegsL]
      by_cases hc : c = '/'
      · rw [if_pos hc]
        rcases hs : splitSegsL (c₁ :: rest₁) with _ | ⟨seg, segs⟩
        · exact absurd hs (splitSegsL_ne_nil _)
        · rw [hs] at ih'
          rw [List.getLast?_cons_cons]
          exact ih'
      · rw [if_neg hc]
        rcases hs : splitSegsL (c₁ :: rest₁) with _ | ⟨seg, segs⟩
        · exact absurd hs (splitSegsL_ne_nil _)
        · rw [hs] at ih'
          rcases segs with _ | ⟨s₁, ss⟩
          · simp only [List.getLast?_singleton, Option.some.injEq] at ih'
            subst ih'
            exact absurd (splitSegsL_single_empty _ hs) (by simp)
          · rw [List.getLast?_cons_cons]
            rw [List.getLast?_cons_cons] at ih'
            exact ih'

theorem removeDots_plain (segs : List (List Char)) (acc : List (List Char))
    (h : ∀ seg ∈ segs, seg ≠ ['.'] ∧ seg ≠ ['.', '.']) :
    removeDots acc segs = acc ++ segs := by
  induction segs generalizing acc with
  | nil => simp [removeDots]
  | cons seg rest ih =>
    have hseg := h seg (List.mem_cons_self _ _)
    rw [removeDots, if_neg hseg.1, if_neg hseg.2,
      ih (acc ++ [seg]) (fun q hq => h q (List.mem_cons_of_mem _ hq))]
    simp

theorem percentDecodeAux_no_pct (l : List Char) (h : '%' ∉ l) : percentDecodeAux l = some l := by
  induction l with
  | nil => rfl
  | cons c rest ih =>
    have hc : ¬(c = '%') := fun he => h (by simp [he])
    have hrest : '%' ∉ rest := fun hm => h (List.mem_cons_of_mem _ hm)
    rw [percentDecodeAux.eq_def]
    simp [hc, ih hrest]

theorem takeWhile_all {p : Char → Bool} (l : List Char) (h : ∀ c ∈ l, p c = true) :
    l.takeWhile p = l := by
  induction l with
  | nil => rfl
  | cons c rest ih =>
    rw [List.takeWhile_cons, if_pos (h c (List.mem_cons_self _ _)),
      ih (fun q hq => h q (List.mem_cons_of_mem _ hq))]

theorem goodSlug_head (s : String) (c : Char) (rest : List Char)
    (hd : s.data = c :: rest) (h : goodSlug s = true) : plainChar c = true := by
  rw [goodSlug, hd, splitSegsL] at h
  by_cases hc : c = '/'
  · rw [if_pos hc] at h
    simp [plainSeg] at h
  · rw [if_neg hc] at h
    rcases hs : splitSegsL rest with _ | ⟨seg, segs⟩
    · exact absurd hs (splitSegsL_ne_nil _)
    · rw [hs] at h
      simp only [List.all_cons, Bool.and_eq_true] at h
      have := h.1
      simp only [plainSeg, Bool.and_eq_true, List.all_cons] at this
      exact this.2.1

theorem goodSlug_ne_nil (s : String) (h : goodSlug s = true) : s.data ≠ [] := by
  intro he
  rw [goodSlug, he] at h
  simp [splitSegsL, plainSeg] at h

/-- C9 amended: the canonicalise-strip-decode normalization of lines
193–201 fixes every slug already in canonical shape provided the
current page identifier is a single plain segment; with a multi-segment
page identifier the relative resolution re-prefixes the parent
directories and normalization is not idempotent. -/
theorem c9_norm_amended (curSlug s : String) (h₁ : goodSlug curSlug = true)
    (h₂ : (splitSegsL curSlug.data).length = 1) (h₃ : goodSlug s = true) :
    internalResolve curSlug s = some s := by
  rcases hcd : curSlug.data with _ | ⟨b₀, br⟩
  · exact absurd hcd (goodSlug_ne_nil curSlug h₁)
  rcases hsd : s.data with _ | ⟨c₀, cr⟩
  · exact absurd hsd (goodSlug_ne_nil s h₃)
  have hb₀ : plainChar b₀ = true := goodSlug_head curSlug b₀ br hcd h₁
  have hc₀ : plainChar c₀ = true := goodSlug_head s c₀ cr hsd h₃
  have hall : ∀ ch ∈ s.data, ch = '/' ∨ plainChar ch = true := by
    intro ch hm
    rcases mem_splitSegsL s.data ch hm with h | ⟨seg, hsegm, hchm⟩
    · exact Or.inl h
    · right
      have hps : plainSeg seg = true := by
        rw [goodSlug] at h₃
        exact (List.all_eq_true.mp h₃) seg hsegm
      simp only [plainSeg, Bool.and_eq_true] at hps
      exact (List.all_eq_true.mp hps.2) ch hchm
  have hplain : ∀ ch : Char, plainChar ch = true →
      ¬ch = '/' ∧ ¬ch = '#' ∧ ¬ch = '?' ∧ ¬ch = '%' ∧ ¬ch = '\\' ∧ ¬ch = ':' := by
    intro ch h
    simp only [plainChar, Bool.or_eq_true, decide_eq_true_eq, Bool.not_eq_true',
      Bool.or_eq_false_iff, decide_eq_false_iff_not] at h
    exact ⟨h.1.1.1.1.1, h.1.1.1.1.2, h.1.1.1.2, h.1.1.2, h.1.2, h.2⟩
  have hdots : ∀ seg ∈ splitSegsL s.data, seg ≠ ['.'] ∧ seg ≠ ['.', '.'] := by
    intro seg hsegm
    have hps : plainSeg seg = true := by
      rw [goodSlug] at h₃
      exact (List.all_eq_true.mp h₃) seg hsegm
    simp only [plainSeg, Bool.and_eq_true, decide_eq_true_eq] at hps
    exact ⟨hps.1.1.2, hps.1.2⟩
  have hstrip : stripSlashes curSlug true = curSlug := by
    rw [stripSlashes]
    simp only [if_true]
    rw [hcd, List.dropWhile_cons,
      if_neg (by simp [(hplain b₀ hb₀).1]), ← hcd, mk_data]
  have hbase : ("/" ++ stripSlashes curSlug true).data = '/' :: curSlug.data := by
    rw [hstrip, data_append]
    rfl
  have hscheme : schemeOf s = none := by
    rw [schemeOf]
    have ht : s.data.takeWhile (· ≠ ':') = s.data := by
      apply takeWhile_all
      intro ch hm
      rcases hall ch hm with h0 | h0
      · rw [h0]; decide
      · simp [(hplain ch h0).2.2.2.2.2]
    simp only [ht]
    rw [if_neg]
    intro hcontr
    exact absurd hcontr.1 (Nat.lt_irrefl _)
  have hss : startsWithTwoSlashes s = false := by
    rw [startsWithTwoSlashes, hsd]
    cases cr with
    | nil => rfl
    | cons c₁ cr₁ =>
      have := (hplain c₀ hc₀).1
      simp [this]
  have hbs : s.data.contains '\\' = false := by
    cases hcb : s.data.contains '\\' with
    | false => rfl
    | true =>
      have hm : '\\' ∈ s.data := List.mem_of_elem_eq_true hcb
      rcases hall '\\' hm with h0 | h0
      · exact absurd h0 (by decide)
      · exact absurd h0 (by decide)
  have hcut : s.data.takeWhile (fun c => !(c = '#' || c = '?')) = s.data := by
    apply takeWhile_all
    intro ch hm
    rcases hall ch hm with h0 | h0
    · rw [h0]; decide
    · have h' := hplain ch h0
      simp [h'.2.1, h'.2.2.1]
  have hc₀ne : ¬c₀ = '/' := (hplain c₀ hc₀).1
  have hurl : urlPathname s ("/" ++ stripSlashes curSlug true) =
      some (String.mk ('/' :: s.data)) := by
    rw [urlPathname, hscheme, hss, hbs]
    simp only [Option.isSome_none, Bool.false_eq_true, if_false, hcut]
    rw [hsd]
    simp only []
    rw [if_neg hc₀ne]
    rw [hbase, hcd]
    simp only [List.drop_succ_cons, List.drop_zero]
    rw [← hcd]
    rcases List.length_eq_one.mp h₂ with ⟨a, ha⟩
    rw [ha]
    simp only [List.dropLast_single, List.nil_append]
    rw [resolvePathSegs, removeDots_plain _ [] (by rw [← hsd]; exact hdots)]
    rw [List.nil_append, ← hsd, joinSegsL_splitSegsL]
  rw [internalResolve, hurl]
  simp only []
  have hanch : (splitAnchor (String.mk ('/' :: s.data))).1 = String.mk ('/' :: s.data) := by
    rw [splitAnchor]
    simp only []
    congr 1
    apply takeWhile_all
    intro ch hm
    rcases List.mem_cons.mp hm with h0 | h0
    · rw [h0]; decide
    · rcases hall ch h0 with h1 | h1
      · rw [h1]; decide
      · simp [(hplain ch h1).2.1]
  rw [hanch]
  have hend : endsWithChar (String.mk ('/' :: s.data)) '/' = false := by
    rw [endsWithChar]
    have hdata : (String.mk ('/' :: s.data)).data = '/' :: s.data := rfl
    rw [hdata, hsd, List.getLast?_cons_cons]
    apply decide_eq_false
    intro hlast
    have hlast' := getLast_slash_splitSegsL (c₀ :: cr) hlast
    have hmem : ([] : List Char) ∈ splitSegsL (c₀ :: cr) := by
      rcases List.mem_getLast?_eq_getLast (Option.mem_def.mpr hlast') with ⟨hne, heq⟩
      rw [heq]
      exact List.getLast_mem hne
    rw [← hsd] at hmem
    have hps : plainSeg ([] : List Char) = true := by
      rw [goodSlug] at h₃
      exact (List.all_eq_true.mp h₃) [] hmem
    exact absurd hps (by decide)
  rw [if_neg (by rw [hend]; exact Bool.false_ne_true)]
  have hstrip2 : stripSlashes (String.mk ('/' :: s.data)) true = s := by
    rw [stripSlashes]
    simp only [if_true]
    rw [List.dropWhile_cons, if_pos (by decide), hsd, List.dropWhile_cons,
      if_neg (by simp [hc₀ne]), ← hsd, mk_data]
  rw [hstrip2, decodeURIComponent]
  have hnp : '%' ∉ s.data := by
    intro hm
    rcases hall '%' hm with h0 | h0
    · exact absurd h0 (by decide)
    · exact absurd h0 (by decide)
  rw [percentDecodeAux_no_pct s.data hnp]
  rw [Option.map_some', mk_data]

theorem c9_witness :
    goodSlug "b" = true ∧ (splitSegsL ("b" : String).data).length = 1 ∧
      goodSlug "a/c" = true ∧ internalResolve "b" "a/c" = some "a/c" :=
  ⟨by decide, by decide, by decide,
   c9_norm_amended "b" "a/c" (by decide) (by decide) (by decide)⟩
